import Mathlib

/-!
Verification of the chord-progression analysis subsystem and the analysis
orchestrator of the colab-llm-learning-system backend.

The Python sources embedded here:
* `backend/app/services/chord_analyzer.py` — `ChordAnalyzer`
  (`analyze`, `_detect_chords_madmom`, `_get_chord_name`,
  `_analyze_chord_sequence`);
* `backend/app/services/audio_analyzer.py` — `AudioAnalyzer.analyze_audio`;
* `backend/app/services/whisper_transcription.py` —
  `WhisperTranscriber.transcribe` (its error handling).

Times and confidences are exact rationals: every value the Python code
produces here is a finite decimal (frame times `i / 10`, the fixed
fallback duration `0.5`, the fixed confidence `0.85`), so `ℚ` models the
float arithmetic without rounding concerns.
-/

/- Batteries marks the `Rat` arithmetic operations `@[irreducible]`, which
blocks `decide`-style evaluation of concrete rational computations; the
kernel reduces them fine.  Restore default reducibility for this file. -/
set_option allowUnsafeReducibility true in
attribute [semireducible] Rat.mul Rat.inv Rat.add Rat.sub

/-- One detected chord segment, as built by `_detect_chords_madmom`
(the dicts with keys `time`, `chord`, `duration`, `confidence`). -/
structure ChordEvent where
  time : ℚ
  chord : String
  duration : ℚ
  confidence : ℚ
deriving DecidableEq, Repr

/-- `ChordAnalyzer.CHORD_NAMES` (chord_analyzer.py, lines 20-22): the
twelve chromatic pitch-class names, a single flat list in the source
(written here as two halves). -/
def CHORD_NAMES : List String :=
  ["C", "C#", "D", "D#", "E", "F"] ++ ["F#", "G", "G#", "A", "A#", "B"]

/-- `ChordAnalyzer._get_chord_name` (chord_analyzer.py, lines 111-125):
index 24 is the no-chord class "N"; 0-11 are major chords; 12-23 minor. -/
def getChordName (chord_idx : ℕ) : String :=
  if chord_idx = 24 then "N"
  else
    let root := chord_idx % 12
    let quality := if chord_idx < 12 then "maj" else "min"
    CHORD_NAMES.getD root "" ++ ":" ++ quality

/-- Frames per second of the chord recognizer (`self.fps = 10`). -/
def fps : ℚ := 10

/-- The frame loop of `_detect_chords_madmom` (chord_analyzer.py, lines
84-107).  State: the current frame index (`frame_idx`, the Python
`enumerate` counter), `prev_chord : Option String` (Python's
`prev_chord`, initially `None`), `prev_time`, and the list built so far
(`chords_data`).  A frame whose name equals `prev_chord` is skipped;
otherwise the pending segment (if any) is appended with duration
`time - prev_time`, and the pending segment becomes the current frame.
After the loop the pending segment is appended with the fixed estimate
duration 0.5.  Every event carries the fixed default confidence 0.85. -/
def mergeLoop : ℕ → Option String → ℚ → List ChordEvent → List String → List ChordEvent
  | _, some pc, pt, acc, [] => acc ++ [⟨pt, pc, 1/2, 85/100⟩]
  | _, none, _, acc, [] => acc
  | i, prev, pt, acc, name :: rest =>
      if prev = some name then
        mergeLoop (i + 1) prev pt acc rest
      else
        match prev with
        | none => mergeLoop (i + 1) (some name) ((i : ℚ) / fps) acc rest
        | some pc =>
            mergeLoop (i + 1) (some name) ((i : ℚ) / fps)
              (acc ++ [⟨pt, pc, (i : ℚ) / fps - pt, 85/100⟩]) rest

/-- The run-length merge applied to a frame-label sequence: the loop of
`_detect_chords_madmom` started from its initial state
(`prev_chord = None`, `prev_time = 0`, `chords_data = []`). -/
def detectFromLabels (labels : List String) : List ChordEvent :=
  mergeLoop 0 none 0 [] labels

/-- `ChordAnalyzer._detect_chords_madmom` (chord_analyzer.py, lines
62-109) on the decoder's frame output `chords : List ℕ` of class
indices.  The source computes `chord_name = self._get_chord_name(chord_idx)`
once per frame inside the loop; mapping the whole frame list through
`getChordName` first feeds the identical name sequence to the loop. -/
def detectChordsMadmom (chords : List ℕ) : List ChordEvent :=
  detectFromLabels (chords.map getChordName)

/-- The frames at which the merge starts a new segment: the frames whose
label differs from the previous frame's label (the first frame has no
previous frame, hence always starts a segment).  `prev` carries the
previous frame's label, `i` the current frame index. -/
def changeFrames : ℕ → Option String → List String → List (ℕ × String)
  | _, _, [] => []
  | i, prev, l :: rest =>
      if prev = some l then changeFrames (i + 1) (some l) rest
      else (i, l) :: changeFrames (i + 1) (some l) rest

/-- Builds the event list from a pending segment `(pt, pc)` followed by
the remaining change frames: each non-final segment's duration is the
next change time minus its own start, the final segment gets the fixed
0.5 estimate, every event the fixed 0.85 confidence. -/
def eventsFrom (pt : ℚ) (pc : String) : List (ℕ × String) → List ChordEvent
  | [] => [⟨pt, pc, 1/2, 85/100⟩]
  | (j, y) :: rest =>
      ⟨pt, pc, (j : ℚ) / fps - pt, 85/100⟩ :: eventsFrom ((j : ℚ) / fps) y rest

/-- The Python dict update `transitions[t] = transitions.get(t, 0) + 1`
(and a `Counter` tally): if the key is present its count is incremented
in place, otherwise the key is appended with count 1.  Python dicts
preserve insertion order, so an ordered association list models them. -/
def dictIncr : List (String × ℕ) → String → List (String × ℕ)
  | [], k => [(k, 1)]
  | (k', v) :: rest, k =>
      if k' = k then (k', v + 1) :: rest else (k', v) :: dictIncr rest k

/-- `collections.Counter(chord_sequence)`: tally of the labels, keys in
first-seen order (Python dicts preserve insertion order). -/
def counterOf (seq : List String) : List (String × ℕ) :=
  seq.foldl dictIncr []

/-- One step of selecting the entry with the largest count: keep the
current best unless the new entry's count is strictly larger.  Scanning
the counter's entries (first-seen key order) with this step yields the
first key attaining the maximal count, which is what
`Counter.most_common(1)[0]` returns (`heapq.nlargest` is specified as
`sorted(..., reverse=True)[:n]` with a stable sort over insertion
order). -/
def pickMax : Option (String × ℕ) → (String × ℕ) → Option (String × ℕ)
  | none, p => some p
  | some b, p => if p.2 > b.2 then some p else some b

/-- `Counter(...).most_common(1)[0]` on an insertion-ordered tally. -/
def mostCommonOf (m : List (String × ℕ)) : Option (String × ℕ) :=
  m.foldl pickMax none

/-- Deduplication keeping first occurrences, skipping anything in
`seen`.  Models the key set produced by iterating `list(set(...))` — the
Python set iteration order is unspecified, so only the membership of the
result is meaningful; first-seen order is a deterministic choice. -/
def firstSeenAux (seen : List String) : List String → List String
  | [] => []
  | x :: xs =>
      if x ∈ seen then firstSeenAux seen xs else x :: firstSeenAux (x :: seen) xs

/-- Character-level worker for `splitOnColon`: Python's
`str.split(":")` keeping empty parts. -/
def splitColonAux (acc : List Char) : List Char → List (List Char)
  | [] => [acc]
  | c :: rest =>
      if c = ':' then acc :: splitColonAux [] rest
      else splitColonAux (acc ++ [c]) rest

/-- `most_common_chord.split(":")` (chord_analyzer.py, line 170). -/
def splitOnColon (s : String) : List String :=
  (splitColonAux [] s.data).map List.asString

/-- The `ChordProgression` pydantic model (music_analysis.py):
`chord_transitions` is a `Dict[str, int]`, modelled as an
insertion-ordered association list; optional fields are `Option`. -/
structure ChordProgression where
  chords : List ChordEvent
  chord_sequence : List String
  unique_chords : List String
  chord_transitions : List (String × ℕ)
  most_common_chord : Option String
  key : Option String
  mode : Option String
  analyzer_used : String
  confidence_mean : Option ℚ
deriving DecidableEq, Repr

/-- `ChordAnalyzer._analyze_chord_sequence` (chord_analyzer.py, lines
127-188).  Empty input returns the empty summary (`confidence_mean` 0.0,
the unset model fields defaulting to `None`).  Otherwise: the label
sequence, the first-seen unique labels, the transition tally over
adjacent pairs keyed by the string "from -> to", the most common chord
via `Counter.most_common(1)`, the mean confidence, and the key/mode
heuristic parsed from the most common chord. -/
def analyzeChordSequence (chords_data : List ChordEvent) : ChordProgression :=
  match chords_data with
  | [] =>
      { chords := [], chord_sequence := [], unique_chords := [],
        chord_transitions := [], most_common_chord := none, key := none,
        mode := none, analyzer_used := "madmom", confidence_mean := some 0 }
  | _ :: _ =>
      let chord_sequence := chords_data.map (fun c => c.chord)
      let unique_chords := firstSeenAux [] chord_sequence
      let transitions := (chord_sequence.zip chord_sequence.tail).foldl
        (fun m p => dictIncr m (p.1 ++ " -> " ++ p.2)) []
      let most_common_chord := (mostCommonOf (counterOf chord_sequence)).map
        (fun p => p.1)
      let confidences := chords_data.map (fun c => c.confidence)
      let confidence_mean : ℚ :=
        if confidences = [] then 0
        else confidences.sum / (confidences.length : ℚ)
      let keyMode : Option String × Option String :=
        match most_common_chord with
        | some mc =>
            -- `if most_common_chord and most_common_chord != "N":`
            -- (Python truthiness: the empty string is falsy too)
            if mc ≠ "" ∧ mc ≠ "N" then
              let parts := splitOnColon mc
              if parts.length = 2 then
                (some (parts.getD 0 ""),
                 some (if parts.getD 1 "" = "maj" then "major" else "minor"))
              else (none, none)
            else (none, none)
        | none => (none, none)
      { chords := chords_data, chord_sequence := chord_sequence,
        unique_chords := unique_chords, chord_transitions := transitions,
        most_common_chord := most_common_chord, key := keyMode.1,
        mode := keyMode.2, analyzer_used := "madmom",
        confidence_mean := some confidence_mean }

/-- `ChordAnalyzer.analyze` (chord_analyzer.py, lines 29-60).  The
recognition stage (madmom classifier + waveform decode) is the only
fallible part; its outcome is the `Except` input.  On success the frame
indices are merged and summarized; on any exception the handler returns
a fresh `ChordProgression` with empty chords, sequence, unique chords
and transitions (the remaining model fields default to `None`) — it
never re-raises. -/
def chordAnalyze (recognition : Except String (List ℕ)) :
    Except String ChordProgression :=
  match recognition with
  | Except.ok chords =>
      Except.ok (analyzeChordSequence (detectChordsMadmom chords))
  | Except.error _ =>
      Except.ok
        { chords := [], chord_sequence := [], analyzer_used := "madmom",
          unique_chords := [], chord_transitions := [],
          most_common_chord := none, key := none, mode := none,
          confidence_mean := none }

/-- The metadata dictionary `AudioAnalyzer._extract_metadata` returns.
That method wraps all its work in try/except and returns the (possibly
empty) dict in every case, so it is modelled by its result. -/
structure Metadata where
  title : Option String
  artist : Option String
  album : Option String
  genre : Option String
  year : Option Int
deriving DecidableEq, Repr

/-- The `AudioFeatures` pydantic model: all four feature blocks optional
(defaulting to `None`).  The librosa/essentia payloads and the lyrics
payload are opaque to every claim, so they are type parameters. -/
structure AudioFeaturesRec (α β γ : Type) where
  librosa : Option α
  essentia : Option β
  chord_progression : Option ChordProgression
  lyrics : Option γ

/-- The `MusicAnalysis` document built at the end of
`AudioAnalyzer.analyze_audio` (wall-clock fields `created_at` /
`processing_time_total` are not modelled). -/
structure MusicAnalysisRec (α β γ : Type) where
  filename : String
  file_size : ℕ
  duration : ℚ
  sample_rate : ℕ
  source : String
  source_path : Option String
  title : Option String
  artist : Option String
  album : Option String
  genre : Option String
  year : Option Int
  features : AudioFeaturesRec α β γ

/-- The pipeline stages of `analyze_audio`, used to record which stages
a run invokes. -/
inductive Stage where
  | metadata
  | librosa
  | essentia
  | chord
  | transcription
deriving DecidableEq, Repr

/-- The environment-determined outcomes of the stages of one
`analyze_audio` run: the metadata dict (its extractor never raises), the
file stats, the two extractors' outcomes (librosa returns its features
together with `duration` and `sample_rate`), the chord recognition
outcome consumed by `ChordAnalyzer.analyze`, and the Whisper client
state and API outcome consumed by `WhisperTranscriber.transcribe`. -/
structure OrchInput (α β γ : Type) where
  filename : String
  file_size : ℕ
  metadataResult : Metadata
  librosaResult : Except String (α × ℚ × ℕ)
  essentiaResult : Except String β
  recognitionResult : Except String (List ℕ)
  whisperClient : Option Unit
  whisperApi : Except String γ

/-- `WhisperTranscriber.transcribe` (whisper_transcription.py, lines
32-105): returns `None` when the client was never initialised (no API
key); otherwise returns the transcription, except that every exception
(`openai.APIError` or any other) is caught and turned into `None`.  It
never raises. -/
def transcribe {γ : Type} (client : Option Unit) (api : Except String γ) :
    Option γ :=
  match client with
  | none => none
  | some _ =>
      match api with
      | Except.ok l => some l
      | Except.error _ => none

/-- `Except.isOk` as a plain boolean discriminator. -/
def exceptOk {ε α : Type} : Except ε α → Bool
  | Except.ok _ => true
  | Except.error _ => false

/-- `AudioAnalyzer.analyze_audio` (audio_analyzer.py, lines 35-115).
Metadata extraction and the file stats run before the try block.  Inside
the try block, in order: librosa extraction, essentia extraction, chord
analysis, and — only if `extract_lyrics` — transcription.  Any exception
is re-raised as-is (`raise`), aborting the run; stages after the failing
one never run.  On success the `MusicAnalysis` record is assembled from
the stage results.  The second component records the stages invoked, in
order. -/
def analyzeAudio {α β γ : Type} (inp : OrchInput α β γ) (source : String)
    (source_path : Option String) (extract_lyrics : Bool) :
    Except String (MusicAnalysisRec α β γ) × List Stage :=
  let metadata := inp.metadataResult
  match inp.librosaResult with
  | Except.error e => (Except.error e, [Stage.metadata, Stage.librosa])
  | Except.ok (librosa_features, duration, sample_rate) =>
      match inp.essentiaResult with
      | Except.error e =>
          (Except.error e, [Stage.metadata, Stage.librosa, Stage.essentia])
      | Except.ok essentia_features =>
          match chordAnalyze inp.recognitionResult with
          | Except.error e =>
              (Except.error e,
               [Stage.metadata, Stage.librosa, Stage.essentia, Stage.chord])
          | Except.ok chord_progression =>
              let lyrics :=
                if extract_lyrics then
                  transcribe inp.whisperClient inp.whisperApi
                else none
              (Except.ok
                { filename := inp.filename, file_size := inp.file_size,
                  duration := duration, sample_rate := sample_rate,
                  source := source, source_path := source_path,
                  title := metadata.title, artist := metadata.artist,
                  album := metadata.album, genre := metadata.genre,
                  year := metadata.year,
                  features :=
                    { librosa := some librosa_features,
                      essentia := some essentia_features,
                      chord_progression := some chord_progression,
                      lyrics := lyrics } },
               [Stage.metadata, Stage.librosa, Stage.essentia, Stage.chord]
                 ++ if extract_lyrics then [Stage.transcription] else [])

/-- The sum of the counts stored in a transition table / tally
(`sum(transitions.values())`). -/
def sumValues (m : List (String × ℕ)) : ℕ :=
  (m.map Prod.snd).sum

/-- Dictionary lookup on an insertion-ordered association list
(`d.get(k)`). -/
def lookupKey : List (String × ℕ) → String → Option ℕ
  | [], _ => none
  | (k', v) :: rest, k => if k' = k then some v else lookupKey rest k

/-- A concrete run whose librosa (primary extraction) stage fails. -/
def failingLibrosaInput : OrchInput Unit Unit Unit :=
  { filename := "song.mp3", file_size := 7,
    metadataResult := ⟨none, none, none, none, none⟩,
    librosaResult := Except.error "librosa failed",
    essentiaResult := Except.ok (), recognitionResult := Except.ok [],
    whisperClient := none, whisperApi := Except.error "no key" }

/-- A concrete run where every required stage succeeds and the Whisper
client is unavailable (no API key), so transcription fails. -/
def whisperFailInput : OrchInput Unit Unit Unit :=
  { filename := "song.mp3", file_size := 7,
    metadataResult := ⟨none, none, none, none, none⟩,
    librosaResult := Except.ok ((), 3, 44100),
    essentiaResult := Except.ok (),
    recognitionResult := Except.error "decode failure",
    whisperClient := none, whisperApi := Except.error "no key" }

/-- The record the `whisperFailInput` run produces. -/
def whisperFailRecord : MusicAnalysisRec Unit Unit Unit :=
  { filename := "song.mp3", file_size := 7, duration := 3,
    sample_rate := 44100, source := "upload", source_path := none,
    title := none, artist := none, album := none, genre := none,
    year := none,
    features :=
      { librosa := some (), essentia := some (),
        chord_progression := some
          { chords := [], chord_sequence := [], unique_chords := [],
            chord_transitions := [], most_common_chord := none,
            key := none, mode := none, analyzer_used := "madmom",
            confidence_mean := none },
        lyrics := none } }

/-! ### Structure of the run-length merge -/

/-- The loop of `_detect_chords_madmom`, once a first segment is
pending, appends exactly one event per change frame. -/
theorem mergeLoop_some_eq (L : List String) :
    ∀ (i : ℕ) (pc : String) (pt : ℚ) (acc : List ChordEvent),
      mergeLoop i (some pc) pt acc L
        = acc ++ eventsFrom pt pc (changeFrames i (some pc) L) := by
  induction L with
  | nil => intro i pc pt acc; simp [mergeLoop, changeFrames, eventsFrom]
  | cons name rest ih =>
      intro i pc pt acc
      by_cases h : pc = name
      · subst h
        simp only [mergeLoop, changeFrames, if_pos rfl]
        exact ih (i + 1) pc pt acc
      · have hne : ¬ ((some pc : Option String) = some name) := by simp [h]
        simp only [mergeLoop, changeFrames, if_neg hne]
        rw [ih]
        simp [eventsFrom, List.append_assoc]

/-- Unfolding the merge on a nonempty label list: the first frame opens
the first segment at time 0. -/
theorem detectFromLabels_cons (x : String) (xs : List String) :
    detectFromLabels (x :: xs) = eventsFrom 0 x (changeFrames 1 (some x) xs) := by
  have hne : ¬ ((none : Option String) = some x) := by simp
  simp only [detectFromLabels, mergeLoop, if_neg hne]
  rw [mergeLoop_some_eq]
  norm_num

/-- The merge of the empty label list is empty. -/
theorem detectFromLabels_nil : detectFromLabels [] = [] := rfl

/-- `changeFrames` with no previous label starts a segment at the first
frame. -/
theorem changeFrames_none_cons (i : ℕ) (x : String) (xs : List String) :
    changeFrames i none (x :: xs) = (i, x) :: changeFrames (i + 1) (some x) xs := by
  simp [changeFrames]

theorem eventsFrom_ne_nil (cps : List (ℕ × String)) (pt : ℚ) (pc : String) :
    eventsFrom pt pc cps ≠ [] := by
  cases cps <;> simp [eventsFrom]

/-- The first event built by `eventsFrom` starts at the pending time with
the pending label. -/
theorem eventsFrom_head (cps : List (ℕ × String)) (pt : ℚ) (pc : String) :
    ∃ e, (eventsFrom pt pc cps).head? = some e ∧ e.time = pt ∧ e.chord = pc := by
  cases cps with
  | nil => exact ⟨_, rfl, rfl, rfl⟩
  | cons p rest => exact ⟨_, rfl, rfl, rfl⟩

/-- Start times and labels of the merged events: the pending segment
followed by one event per change frame, at time `index / fps`. -/
theorem eventsFrom_map_time_chord (cps : List (ℕ × String)) :
    ∀ (pt : ℚ) (pc : String),
      (eventsFrom pt pc cps).map (fun e => (e.time, e.chord))
        = (pt, pc) :: cps.map (fun p => ((p.1 : ℚ) / fps, p.2)) := by
  induction cps with
  | nil => intro pt pc; rfl
  | cons p rest ih =>
      intro pt pc
      obtain ⟨j, y⟩ := p
      simp [eventsFrom, ih]

/-- Labels of the merged events. -/
theorem eventsFrom_map_chord (cps : List (ℕ × String)) :
    ∀ (pt : ℚ) (pc : String),
      (eventsFrom pt pc cps).map ChordEvent.chord = pc :: cps.map Prod.snd := by
  induction cps with
  | nil => intro pt pc; rfl
  | cons p rest ih =>
      intro pt pc
      obtain ⟨j, y⟩ := p
      simp [eventsFrom, ih]

/-- Every non-final merged event's duration is the next event's start
time minus its own start time. -/
theorem eventsFrom_chain (cps : List (ℕ × String)) :
    ∀ (pt : ℚ) (pc : String),
      List.Chain' (fun a b => a.duration = b.time - a.time)
        (eventsFrom pt pc cps) := by
  induction cps with
  | nil => intro pt pc; simp [eventsFrom]
  | cons p rest ih =>
      intro pt pc
      obtain ⟨j, y⟩ := p
      rw [eventsFrom, List.chain'_cons']
      refine ⟨?_, ih _ _⟩
      intro b hb
      obtain ⟨e, he, ht, _⟩ := eventsFrom_head rest ((j : ℚ) / fps) y
      rw [he] at hb
      simp only [Option.mem_def, Option.some.injEq] at hb
      subst hb
      simp [ht]

/-- The last merged event exists, carries the fixed 0.5 fallback
duration, and the durations telescope: their sum is the last start time
minus the pending start time plus 0.5. -/
theorem eventsFrom_last_sum (cps : List (ℕ × String)) :
    ∀ (pt : ℚ) (pc : String),
      ∃ e, (eventsFrom pt pc cps).getLast? = some e ∧ e.duration = 1/2
        ∧ ((eventsFrom pt pc cps).map ChordEvent.duration).sum
            = e.time - pt + 1/2 := by
  induction cps with
  | nil =>
      intro pt pc
      refine ⟨⟨pt, pc, 1/2, 85/100⟩, rfl, rfl, ?_⟩
      simp [eventsFrom]
  | cons p rest ih =>
      intro pt pc
      obtain ⟨j, y⟩ := p
      obtain ⟨e, hlast, hdur, hsum⟩ := ih ((j : ℚ) / fps) y
      obtain ⟨b, t, hbt⟩ := List.exists_cons_of_ne_nil
        (eventsFrom_ne_nil rest ((j : ℚ) / fps) y)
      refine ⟨e, ?_, hdur, ?_⟩
      · rw [eventsFrom, hbt, List.getLast?_cons_cons, ← hbt, hlast]
      · rw [eventsFrom]
        simp only [List.map_cons, List.sum_cons, hsum]
        ring

/-- Every merged event carries the fixed default confidence 0.85. -/
theorem eventsFrom_confidence (cps : List (ℕ × String)) :
    ∀ (pt : ℚ) (pc : String) (e : ChordEvent),
      e ∈ eventsFrom pt pc cps → e.confidence = 85/100 := by
  induction cps with
  | nil =>
      intro pt pc e he
      simp [eventsFrom] at he
      subst he; rfl
  | cons p rest ih =>
      intro pt pc e he
      obtain ⟨j, y⟩ := p
      rw [eventsFrom, List.mem_cons] at he
      rcases he with he | he
      · subst he; rfl
      · exact ih _ _ _ he

/-- On an adjacent-distinct label list, every frame is a change frame:
`changeFrames` keeps all labels in order. -/
theorem changeFrames_of_chain (S : List String) :
    ∀ (i : ℕ) (prev : Option String),
      (∀ x, S.head? = some x → prev ≠ some x) →
      List.Chain' (fun a b => a ≠ b) S →
      (changeFrames i prev S).map Prod.snd = S := by
  induction S with
  | nil => intro i prev _ _; rfl
  | cons x xs ih =>
      intro i prev hhead hchain
      have hprev : ¬ (prev = some x) := hhead x rfl
      rw [List.chain'_cons'] at hchain
      simp only [changeFrames, if_neg hprev, List.map_cons]
      congr 1
      refine ih (i + 1) (some x) ?_ hchain.2
      intro y hy hxy
      have : x ≠ y := hchain.1 y (by simp [hy])
      simp only [Option.some.injEq] at hxy
      exact this hxy

/-! ### Claim C5: full characterization of the run-length merge -/

/-- C5.  For every frame-label sequence (the decoder's class indices
mapped through `_get_chord_name`), the merge starts a new segment
exactly at each frame whose label differs from the previous frame's
label (the change frames), at time `frame / fps`; each non-final
segment's duration is the next segment's start minus its own start; the
final segment's duration is the fixed constant 0.5 s; and every emitted
event carries the fixed default confidence 0.85. -/
theorem merge_characterization (chords : List ℕ) :
    (detectChordsMadmom chords).map (fun e => (e.time, e.chord))
      = (changeFrames 0 none (chords.map getChordName)).map
          (fun p => ((p.1 : ℚ) / fps, p.2))
    ∧ List.Chain' (fun a b => a.duration = b.time - a.time)
        (detectChordsMadmom chords)
    ∧ (∀ e, (detectChordsMadmom chords).getLast? = some e → e.duration = 1/2)
    ∧ (∀ e ∈ detectChordsMadmom chords, e.confidence = 85/100) := by
  unfold detectChordsMadmom
  cases hL : chords.map getChordName with
  | nil =>
      refine ⟨rfl, by simp [detectFromLabels_nil], ?_, ?_⟩
      · intro e he; simp [detectFromLabels_nil] at he
      · intro e he; simp [detectFromLabels_nil] at he
  | cons x xs =>
      rw [detectFromLabels_cons, changeFrames_none_cons]
      refine ⟨?_, eventsFrom_chain _ _ _, ?_, ?_⟩
      · rw [eventsFrom_map_time_chord]
        simp
      · intro e he
        obtain ⟨e₀, hlast, hdur, _⟩ := eventsFrom_last_sum
          (changeFrames 1 (some x) xs) 0 x
        rw [hlast] at he
        injection he with he
        rw [← he]; exact hdur
      · intro e he
        exact eventsFrom_confidence _ _ _ _ he

/-- Witness for C5 at the concrete frame input `[0, 0, 7]`
(`C:maj, C:maj, G:maj`): the last merged event carries the fixed 0.5
fallback duration. -/
theorem merge_characterization_witness :
    ChordEvent.duration ⟨2/10, "G:maj", 1/2, 85/100⟩ = 1/2 :=
  (merge_characterization [0, 0, 7]).2.2.1 ⟨2/10, "G:maj", 1/2, 85/100⟩
    (by decide)

/-! ### Claim C8: idempotence of the merge -/

/-- C8 counterexample.  The merged output of frames
`C:maj, C:maj, G:maj` is an already-merged segment sequence (adjacent
labels distinct), yet re-merging its labels does not reproduce it: the
re-merge recomputes starts from frame indices (the `G:maj` segment moves
from 0.2 s to 0.1 s) and durations accordingly. -/
theorem remerge_counterexample :
    List.Chain' (fun a b => a.chord ≠ b.chord)
      (detectFromLabels ["C:maj", "C:maj", "G:maj"])
    ∧ detectFromLabels
        ((detectFromLabels ["C:maj", "C:maj", "G:maj"]).map ChordEvent.chord)
      ≠ detectFromLabels ["C:maj", "C:maj", "G:maj"] := by
  have h1 : detectFromLabels ["C:maj", "C:maj", "G:maj"]
      = [⟨0, "C:maj", 2/10, 85/100⟩, ⟨2/10, "G:maj", 1/2, 85/100⟩] := by decide
  constructor
  · rw [h1]
    exact List.chain'_cons.mpr ⟨by decide, List.chain'_singleton _⟩
  · rw [h1]
    decide

/-- C8 as amended: re-merging an already-merged segment sequence
(adjacent labels pairwise distinct) preserves the label sequence — one
event per segment, same labels in the same order.  (Starts and durations
are recomputed from frame indices, so the full event sequences differ in
general, as `remerge_counterexample` shows.) -/
theorem merge_idempotent_on_labels (S : List String)
    (h : List.Chain' (fun a b => a ≠ b) S) :
    (detectFromLabels S).map ChordEvent.chord = S := by
  cases S with
  | nil => rfl
  | cons x xs =>
      rw [detectFromLabels_cons, eventsFrom_map_chord]
      rw [List.chain'_cons'] at h
      congr 1
      refine changeFrames_of_chain xs 1 (some x) ?_ h.2
      intro y hy hxy
      have : x ≠ y := h.1 y (by simp [hy])
      simp only [Option.some.injEq] at hxy
      exact this hxy

/-- Witness for the amended C8 at the already-merged label sequence
`[C:maj, G:maj]`. -/
theorem merge_idempotent_on_labels_witness :
    (detectFromLabels ["C:maj", "G:maj"]).map ChordEvent.chord
      = ["C:maj", "G:maj"] :=
  merge_idempotent_on_labels ["C:maj", "G:maj"]
    (List.chain'_cons.mpr ⟨by decide, List.chain'_singleton _⟩)

/-! ### Claim C4: sum of event durations -/

/-- C4 counterexample.  Two frames of the same label span 0.1 s (or
0.2 s counting a full last frame), but the single merged event carries
the fixed 0.5 s fallback duration: the sum of durations misses the
spanned duration by 0.4 s (resp. 0.3 s), far more than one frame
period. -/
theorem duration_sum_deviates :
    ((detectChordsMadmom [0, 0]).map ChordEvent.duration).sum = 1/2
    ∧ ¬ |((detectChordsMadmom [0, 0]).map ChordEvent.duration).sum
          - (2 - 1 : ℚ) / 10| ≤ 1/10
    ∧ ¬ |((detectChordsMadmom [0, 0]).map ChordEvent.duration).sum
          - (2 : ℚ) / 10| ≤ 1/10 := by decide

/-- C4 as amended: for every non-empty frame-label sequence the sum of
the produced events' durations equals the start time of the last event
plus the fixed 0.5 s fallback (the first event starts at 0, so the sum
telescopes); it is not in general within one frame period of the time
spanned by the frames. -/
theorem durations_sum_formula (chords : List ℕ) (h : chords ≠ []) :
    ∀ e, (detectChordsMadmom chords).getLast? = some e →
      ((detectChordsMadmom chords).map ChordEvent.duration).sum
        = e.time + 1/2 := by
  intro e he
  unfold detectChordsMadmom at *
  cases hL : chords.map getChordName with
  | nil =>
      rw [hL, detectFromLabels_nil] at he
      simp at he
  | cons x xs =>
      rw [hL] at he
      rw [detectFromLabels_cons] at he ⊢
      obtain ⟨e₀, hlast, _, hsum⟩ := eventsFrom_last_sum
        (changeFrames 1 (some x) xs) 0 x
      rw [hlast] at he
      injection he with he
      subst he
      rw [hsum]; ring

/-- Witness for the amended C4 at the concrete frame input `[0, 0]`. -/
theorem durations_sum_formula_witness :
    ((detectChordsMadmom [0, 0]).map ChordEvent.duration).sum
      = ChordEvent.time ⟨0, "C:maj", 1/2, 85/100⟩ + 1/2 :=
  durations_sum_formula [0, 0] (by decide) ⟨0, "C:maj", 1/2, 85/100⟩
    (by decide)

/-! ### Claim C1: recognition failure handling in `analyze` -/

/-- C1 counterexample.  On a recognition failure `ChordAnalyzer.analyze`
does not propagate the error: it returns normally (a successful result)
carrying a `ChordProgression` whose events and sequence are empty. -/
theorem recognition_error_swallowed :
    exceptOk (chordAnalyze (Except.error "waveform decode failure")) = true
    ∧ chordAnalyze (Except.error "waveform decode failure")
      = Except.ok { chords := [], chord_sequence := [], unique_chords := [],
                    chord_transitions := [], most_common_chord := none,
                    key := none, mode := none, analyzer_used := "madmom",
                    confidence_mean := none } := ⟨rfl, rfl⟩

/-- C1 as amended: for every recognition-stage failure,
`ChordAnalyzer.analyze` catches the exception and returns, as a
successful result, the fallback `ChordProgression` with empty chords,
sequence, unique chords and transitions (remaining fields `None`); it
never propagates the error. -/
theorem analyze_error_returns_empty (e : String) :
    chordAnalyze (Except.error e)
      = Except.ok { chords := [], chord_sequence := [], unique_chords := [],
                    chord_transitions := [], most_common_chord := none,
                    key := none, mode := none, analyzer_used := "madmom",
                    confidence_mean := none } := rfl

/-! ### Claim C3: the worked example -/

/-- C3 counterexample.  On the frame input `[(0.0,C:maj), (0.1,C:maj),
(0.2,G:maj), (0.3,G:maj), (0.4,G:maj)]` (class indices `[0,0,7,7,7]`)
the claimed output is wrong on three counts: the final event's duration
is the fixed 0.5 fallback, not 0.3; the most common chord of the merged
sequence `[C:maj, G:maj]` is the count-tie first-seen winner `C:maj`,
not `G:maj`; hence the key heuristic yields `C`, not `G`. -/
theorem example_progression_counterexample :
    (analyzeChordSequence (detectChordsMadmom [0, 0, 7, 7, 7])).chords.map
        ChordEvent.duration ≠ [2/10, 3/10]
    ∧ (analyzeChordSequence (detectChordsMadmom [0, 0, 7, 7, 7])).most_common_chord
        ≠ some "G:maj"
    ∧ (analyzeChordSequence (detectChordsMadmom [0, 0, 7, 7, 7])).key
        ≠ some "G" := by decide

/-- C3 as amended: the frame input `[0,0,7,7,7]` (labels `C:maj ×2,
G:maj ×3` at 10 Hz) produces the two events
`{start 0.0, C:maj, duration 0.2}` and `{start 0.2, G:maj, duration 0.5
(the fixed fallback)}`, sequence `[C:maj, G:maj]`, the single transition
`C:maj -> G:maj` with count 1, most common chord `C:maj` (counts tie at
one each; first-seen wins), key `C`, mode `major`. -/
theorem example_progression_value :
    (analyzeChordSequence (detectChordsMadmom [0, 0, 7, 7, 7])).chords
      = [⟨0, "C:maj", 2/10, 85/100⟩, ⟨2/10, "G:maj", 1/2, 85/100⟩]
    ∧ (analyzeChordSequence (detectChordsMadmom [0, 0, 7, 7, 7])).chord_sequence
      = ["C:maj", "G:maj"]
    ∧ (analyzeChordSequence (detectChordsMadmom [0, 0, 7, 7, 7])).chord_transitions
      = [("C:maj -> G:maj", 1)]
    ∧ (analyzeChordSequence (detectChordsMadmom [0, 0, 7, 7, 7])).most_common_chord
      = some "C:maj"
    ∧ (analyzeChordSequence (detectChordsMadmom [0, 0, 7, 7, 7])).key = some "C"
    ∧ (analyzeChordSequence (detectChordsMadmom [0, 0, 7, 7, 7])).mode
      = some "major" := by decide

/-! ### Claim C10: the chord-index-to-label mapping -/

/-- C10.  `_get_chord_name` is total on the 25 classifier indices and
maps them injectively onto the closed label vocabulary: index 24 (and
only 24) maps to "N", indices below 12 map to `root:maj`, indices 12-23
to `root:min`, with `root = CHORD_NAMES[idx % 12]`. -/
theorem chord_name_mapping (i : ℕ) (h : i ≤ 24) :
    (getChordName i = "N" ↔ i = 24)
    ∧ (i < 12 → getChordName i = CHORD_NAMES.getD (i % 12) "" ++ ":maj")
    ∧ (12 ≤ i → i < 24 → getChordName i = CHORD_NAMES.getD (i % 12) "" ++ ":min")
    ∧ (∀ j, j ≤ 24 → getChordName i = getChordName j → i = j) := by
  revert h
  revert i
  decide

/-- Witness for C10 at the no-chord index 24. -/
theorem chord_name_mapping_witness :
    (getChordName 24 = "N" ↔ 24 = 24)
    ∧ ((24 : ℕ) < 12 → getChordName 24 = CHORD_NAMES.getD (24 % 12) "" ++ ":maj")
    ∧ (12 ≤ (24 : ℕ) → (24 : ℕ) < 24 →
        getChordName 24 = CHORD_NAMES.getD (24 % 12) "" ++ ":min")
    ∧ (∀ j, j ≤ 24 → getChordName 24 = getChordName j → 24 = j) :=
  chord_name_mapping 24 (by decide)

/-! ### Claim C6: the transition-table invariant -/

theorem sumValues_dictIncr (m : List (String × ℕ)) (k : String) :
    sumValues (dictIncr m k) = sumValues m + 1 := by
  induction m with
  | nil => rfl
  | cons p rest ih =>
      obtain ⟨k', v⟩ := p
      by_cases h : k' = k
      · simp [dictIncr, h, sumValues]
        omega
      · simp only [dictIncr, if_neg h, sumValues, List.map_cons, List.sum_cons] at ih ⊢
        omega

theorem length_dictIncr (m : List (String × ℕ)) (k : String) :
    (dictIncr m k).length ≤ m.length + 1 := by
  induction m with
  | nil => simp [dictIncr]
  | cons p rest ih =>
      obtain ⟨k', v⟩ := p
      by_cases h : k' = k <;> simp [dictIncr, h] <;> omega

/-- Incrementing a key leaves the key list unchanged when the key is
present and appends it otherwise. -/
theorem keys_dictIncr (m : List (String × ℕ)) (k : String) :
    (dictIncr m k).map Prod.fst
      = if k ∈ m.map Prod.fst then m.map Prod.fst
        else m.map Prod.fst ++ [k] := by
  induction m with
  | nil => simp [dictIncr]
  | cons p rest ih =>
      obtain ⟨k', v⟩ := p
      by_cases h : k' = k
      · subst h; simp [dictIncr]
      · have hne : k ≠ k' := fun hh => h hh.symm
        simp only [dictIncr, if_neg h, List.map_cons, ih]
        by_cases hm : k ∈ rest.map Prod.fst
        · simp [hm, hne]
        · simp [hm, hne]

theorem keysNodup_dictIncr (m : List (String × ℕ)) (k : String)
    (h : (m.map Prod.fst).Nodup) : ((dictIncr m k).map Prod.fst).Nodup := by
  rw [keys_dictIncr]
  by_cases hm : k ∈ m.map Prod.fst
  · simpa [hm] using h
  · simp [hm, List.nodup_append, h]

theorem sumValues_foldl {σ : Type} (f : σ → String) (l : List σ) :
    ∀ m, sumValues (l.foldl (fun acc p => dictIncr acc (f p)) m)
      = sumValues m + l.length := by
  induction l with
  | nil => intro m; simp
  | cons x xs ih =>
      intro m
      simp only [List.foldl_cons, ih, sumValues_dictIncr, List.length_cons]
      omega

theorem length_foldl_le {σ : Type} (f : σ → String) (l : List σ) :
    ∀ m, (l.foldl (fun acc p => dictIncr acc (f p)) m).length
      ≤ m.length + l.length := by
  induction l with
  | nil => intro m; simp
  | cons x xs ih =>
      intro m
      simp only [List.foldl_cons, List.length_cons]
      calc (xs.foldl (fun acc p => dictIncr acc (f p)) (dictIncr m (f x))).length
          ≤ (dictIncr m (f x)).length + xs.length := ih _
        _ ≤ m.length + 1 + xs.length := by
            have := length_dictIncr m (f x); omega
        _ = m.length + (xs.length + 1) := by omega

theorem keysNodup_foldl {σ : Type} (f : σ → String) (l : List σ) :
    ∀ m, (m.map Prod.fst).Nodup →
      ((l.foldl (fun acc p => dictIncr acc (f p)) m).map Prod.fst).Nodup := by
  induction l with
  | nil => intro m h; simpa using h
  | cons x xs ih =>
      intro m h
      simp only [List.foldl_cons]
      exact ih _ (keysNodup_dictIncr m (f x) h)

/-- The summary's sequence on nonempty input is the events' label list. -/
theorem acs_sequence_cons (c : ChordEvent) (cs : List ChordEvent) :
    (analyzeChordSequence (c :: cs)).chord_sequence
      = (c :: cs).map (fun x => x.chord) := rfl

/-- The summary's transition table on nonempty input is the dict built
by folding the adjacent pairs of the label sequence. -/
theorem acs_transitions_cons (c : ChordEvent) (cs : List ChordEvent) :
    (analyzeChordSequence (c :: cs)).chord_transitions
      = (((c :: cs).map (fun x => x.chord)).zip
            ((c :: cs).map (fun x => x.chord)).tail).foldl
          (fun m p => dictIncr m (p.1 ++ " -> " ++ p.2)) [] := rfl

/-- C6.  For every summary produced by `_analyze_chord_sequence`: the
transition counts sum to `len(sequence) - 1` (truncated subtraction
realises `max(len - 1, 0)`), the transition keys are pairwise distinct,
and their number is at most `len(sequence) - 1`. -/
theorem transitions_invariant (chords_data : List ChordEvent) :
    sumValues (analyzeChordSequence chords_data).chord_transitions
      = (analyzeChordSequence chords_data).chord_sequence.length - 1
    ∧ ((analyzeChordSequence chords_data).chord_transitions.map Prod.fst).Nodup
    ∧ (analyzeChordSequence chords_data).chord_transitions.length
      ≤ (analyzeChordSequence chords_data).chord_sequence.length - 1 := by
  cases chords_data with
  | nil => exact ⟨rfl, List.nodup_nil, Nat.le_refl 0⟩
  | cons c cs =>
      rw [acs_sequence_cons, acs_transitions_cons]
      have hlen : ((c :: cs).map (fun x => x.chord)).length = cs.length + 1 := by
        simp
      have htail : ((c :: cs).map (fun x => x.chord)).tail.length = cs.length := by
        simp
      have hzip : (((c :: cs).map (fun x => x.chord)).zip
          ((c :: cs).map (fun x => x.chord)).tail).length = cs.length := by
        rw [List.length_zip, hlen, htail]
        omega
      refine ⟨?_, ?_, ?_⟩
      · rw [sumValues_foldl, hzip, hlen]
        simp [sumValues]
      · exact keysNodup_foldl _ _ [] List.nodup_nil
      · have := length_foldl_le (fun p => p.1 ++ " -> " ++ p.2)
          ((((c :: cs).map (fun x => x.chord)).zip
            ((c :: cs).map (fun x => x.chord)).tail)) []
        rw [hzip] at this
        rw [hlen]
        simpa using this

/-! ### Claims C2 and C9: orchestrator failure semantics -/

/-- `ChordAnalyzer.analyze` never raises: every outcome of the
recognition stage yields a normally returned `ChordProgression`. -/
theorem chordAnalyze_ok (rec : Except String (List ℕ)) :
    ∃ p, chordAnalyze rec = Except.ok p := by
  cases rec <;> exact ⟨_, rfl⟩

/-- `WhisperTranscriber.transcribe` returns `None` whenever the client
is unavailable or the API call fails. -/
theorem transcribe_fails_none {γ : Type} (client : Option Unit)
    (api : Except String γ)
    (h : client = none ∨ ∃ err, api = Except.error err) :
    transcribe client api = none := by
  rcases h with h | ⟨err, h⟩
  · subst h; rfl
  · subst h; cases client <;> rfl

/-- C2 counterexample.  In a run whose primary (librosa) extraction
stage fails, the metadata stage has nevertheless been invoked: metadata
extraction runs before the try block, so it is not skipped by the
fail-fast abort. -/
theorem metadata_runs_before_extraction :
    Stage.metadata ∈ (analyzeAudio failingLibrosaInput "upload" none true).2 := by
  decide

/-- C2 as amended: if the primary (librosa) extraction stage fails,
`analyze_audio` re-raises the original extraction error (not a wrapper),
returns no record, and the essentia, chord and transcription stages are
never invoked; the metadata stage, however, has already run before
extraction. -/
theorem extraction_failure_fail_fast {α β γ : Type} (inp : OrchInput α β γ)
    (s : String) (sp : Option String) (el : Bool) (e : String)
    (h : inp.librosaResult = Except.error e) :
    analyzeAudio inp s sp el
      = (Except.error e, [Stage.metadata, Stage.librosa])
    ∧ Stage.chord ∉ (analyzeAudio inp s sp el).2
    ∧ Stage.transcription ∉ (analyzeAudio inp s sp el).2
    ∧ Stage.metadata ∈ (analyzeAudio inp s sp el).2 := by
  have h1 : analyzeAudio inp s sp el
      = (Except.error e, [Stage.metadata, Stage.librosa]) := by
    unfold analyzeAudio
    rw [h]
  refine ⟨h1, ?_, ?_, ?_⟩ <;> rw [h1] <;> simp

/-- Witness for the amended C2 at a concrete failing run. -/
theorem extraction_failure_fail_fast_witness :
    analyzeAudio failingLibrosaInput "upload" none true
      = (Except.error "librosa failed", [Stage.metadata, Stage.librosa])
    ∧ Stage.chord ∉ (analyzeAudio failingLibrosaInput "upload" none true).2
    ∧ Stage.transcription
        ∉ (analyzeAudio failingLibrosaInput "upload" none true).2
    ∧ Stage.metadata ∈ (analyzeAudio failingLibrosaInput "upload" none true).2 :=
  extraction_failure_fail_fast failingLibrosaInput "upload" none true
    "librosa failed" rfl

/-- C9.  When `extract_lyrics` is on and the transcription stage fails
(unavailable client or provider error) while librosa and essentia
succeed (the chord stage never raises), `analyze_audio` still returns a
complete record whose lyrics field is `None`; no error reaches the
caller. -/
theorem transcription_failure_nonfatal {α β γ : Type} (inp : OrchInput α β γ)
    (s : String) (sp : Option String) (a : α) (d : ℚ) (sr : ℕ) (b : β)
    (hl : inp.librosaResult = Except.ok (a, d, sr))
    (he : inp.essentiaResult = Except.ok b)
    (ht : inp.whisperClient = none ∨ ∃ err, inp.whisperApi = Except.error err) :
    exceptOk (analyzeAudio inp s sp true).1 = true
    ∧ ∀ r, (analyzeAudio inp s sp true).1 = Except.ok r →
        r.features.lyrics = none := by
  obtain ⟨p, hp⟩ := chordAnalyze_ok inp.recognitionResult
  have hT := transcribe_fails_none inp.whisperClient inp.whisperApi ht
  have h1 : analyzeAudio inp s sp true
      = (Except.ok
          { filename := inp.filename, file_size := inp.file_size,
            duration := d, sample_rate := sr, source := s, source_path := sp,
            title := inp.metadataResult.title,
            artist := inp.metadataResult.artist,
            album := inp.metadataResult.album,
            genre := inp.metadataResult.genre,
            year := inp.metadataResult.year,
            features := { librosa := some a, essentia := some b,
                          chord_progression := some p, lyrics := none } },
         [Stage.metadata, Stage.librosa, Stage.essentia, Stage.chord,
          Stage.transcription]) := by
    unfold analyzeAudio
    rw [hl, he, hp]
    simp [hT]
  refine ⟨?_, ?_⟩
  · rw [h1]; rfl
  · intro r hr
    rw [h1] at hr
    injection hr with hr
    subst hr
    rfl

/-- Witness for C9 at a concrete run with an unavailable Whisper
client. -/
theorem transcription_failure_nonfatal_witness :
    exceptOk (analyzeAudio whisperFailInput "upload" none true).1 = true
    ∧ whisperFailRecord.features.lyrics = none :=
  ⟨(transcription_failure_nonfatal whisperFailInput "upload" none () 3 44100 ()
      rfl rfl (Or.inl rfl)).1,
   (transcription_failure_nonfatal whisperFailInput "upload" none () 3 44100 ()
      rfl rfl (Or.inl rfl)).2 whisperFailRecord rfl⟩

/-! ### Claim C7: the most-common-chord selection -/

theorem lookupKey_dictIncr_self (m : List (String × ℕ)) (k : String) :
    lookupKey (dictIncr m k) k = some ((lookupKey m k).getD 0 + 1) := by
  induction m with
  | nil => simp [dictIncr, lookupKey]
  | cons p rest ih =>
      obtain ⟨k', v⟩ := p
      by_cases h : k' = k
      · simp [dictIncr, lookupKey, h]
      · simp [dictIncr, lookupKey, h, ih]

theorem lookupKey_dictIncr_ne (m : List (String × ℕ)) (k x : String)
    (hx : x ≠ k) : lookupKey (dictIncr m k) x = lookupKey m x := by
  have hkx : ¬ (k = x) := fun hh => hx hh.symm
  induction m with
  | nil => simp [dictIncr, lookupKey, hkx]
  | cons p rest ih =>
      obtain ⟨k', v⟩ := p
      by_cases h : k' = k
      · subst h
        simp [dictIncr, lookupKey, hkx]
      · by_cases h2 : k' = x
        · subst h2
          simp [dictIncr, lookupKey, h]
        · simp [dictIncr, lookupKey, h, h2, ih]

theorem lookupKey_eq_none_iff (m : List (String × ℕ)) (k : String) :
    lookupKey m k = none ↔ k ∉ m.map Prod.fst := by
  induction m with
  | nil => simp [lookupKey]
  | cons p rest ih =>
      obtain ⟨k', v⟩ := p
      by_cases h : k' = k
      · subst h; simp [lookupKey]
      · have hne : ¬ (k = k') := fun hh => h hh.symm
        simp [lookupKey, h, ih, hne]

theorem lookupKey_mem (m : List (String × ℕ)) (k : String) (v : ℕ)
    (h : lookupKey m k = some v) : (k, v) ∈ m := by
  induction m with
  | nil => simp [lookupKey] at h
  | cons p rest ih =>
      obtain ⟨k', v'⟩ := p
      by_cases hk : k' = k
      · subst hk
        simp only [lookupKey, if_pos] at h
        injection h with h
        subst h
        exact List.mem_cons_self _ _
      · simp only [lookupKey, if_neg hk] at h
        exact List.mem_cons_of_mem _ (ih h)

theorem mem_lookupKey_of_nodup (m : List (String × ℕ)) (k : String) (v : ℕ)
    (hnd : (m.map Prod.fst).Nodup) (h : (k, v) ∈ m) :
    lookupKey m k = some v := by
  induction m with
  | nil => simp at h
  | cons p rest ih =>
      obtain ⟨k', v'⟩ := p
      simp only [List.map_cons, List.nodup_cons] at hnd
      rcases List.mem_cons.mp h with h1 | h1
      · injection h1 with hk hv
        subst hk
        subst hv
        simp [lookupKey]
      · have hk : ¬ (k' = k) := by
          intro hh
          subst hh
          exact hnd.1 (List.mem_map.mpr ⟨(k', v), h1, rfl⟩)
        simp only [lookupKey, if_neg hk]
        exact ih hnd.2 h1

theorem mem_keys_dictIncr_self (m : List (String × ℕ)) (k : String) :
    k ∈ (dictIncr m k).map Prod.fst := by
  rw [keys_dictIncr]
  by_cases h : k ∈ m.map Prod.fst
  · simpa [h] using h
  · simp [h]

theorem mem_keys_dictIncr_of_mem (m : List (String × ℕ)) (k a : String)
    (ha : a ∈ m.map Prod.fst) : a ∈ (dictIncr m k).map Prod.fst := by
  rw [keys_dictIncr]
  by_cases h : k ∈ m.map Prod.fst
  · simpa [h] using ha
  · simp only [if_neg h]
    exact List.mem_append_left _ ha

/-- Folding a tally over `l` starting from a dict already containing `k`
adds `l.count k` to the stored count. -/
theorem lookupKey_foldl_mem_keys (l : List String) :
    ∀ (m : List (String × ℕ)) (k : String), k ∈ m.map Prod.fst →
      lookupKey (l.foldl dictIncr m) k
        = some ((lookupKey m k).getD 0 + l.count k) := by
  induction l with
  | nil =>
      intro m k hk
      cases hl : lookupKey m k with
      | none => exact absurd hk ((lookupKey_eq_none_iff m k).mp hl)
      | some v => simpa [hl] using hl
  | cons x xs ih =>
      intro m k hk
      simp only [List.foldl_cons]
      by_cases hx : k = x
      · subst hx
        rw [ih _ _ (mem_keys_dictIncr_self m k), lookupKey_dictIncr_self]
        have : lookupKey m k ≠ none :=
          fun hn => ((lookupKey_eq_none_iff m k).mp hn) hk
        obtain ⟨v, hv⟩ := Option.ne_none_iff_exists'.mp this
        simp [hv, List.count_cons]
        omega
      · rw [ih _ _ (mem_keys_dictIncr_of_mem m x k hk),
          lookupKey_dictIncr_ne m x k hx]
        simp [List.count_cons, hx]

/-- Folding a tally over `l` starting from a dict not containing `k`
stores exactly `l.count k` for `k ∈ l`. -/
theorem lookupKey_foldl_new (l : List String) :
    ∀ (m : List (String × ℕ)) (k : String), k ∉ m.map Prod.fst → k ∈ l →
      lookupKey (l.foldl dictIncr m) k = some (l.count k) := by
  induction l with
  | nil =>
      intro m k _ hk
      simp at hk
  | cons x xs ih =>
      intro m k hnm hk
      simp only [List.foldl_cons]
      by_cases hx : k = x
      · subst hx
        rw [lookupKey_foldl_mem_keys xs _ _ (mem_keys_dictIncr_self m k),
          lookupKey_dictIncr_self]
        have hnone : lookupKey m k = none := (lookupKey_eq_none_iff m k).mpr hnm
        simp [hnone, List.count_cons]
        omega
      · have hk2 : k ∈ xs := by
          rcases List.mem_cons.mp hk with h | h
          · exact absurd h hx
          · exact h
        have hnm' : k ∉ (dictIncr m x).map Prod.fst := by
          rw [keys_dictIncr]
          by_cases h : x ∈ m.map Prod.fst
          · simpa [h] using hnm
          · simp only [if_neg h]
            intro hmem
            rcases List.mem_append.mp hmem with h1 | h1
            · exact hnm h1
            · simp at h1
              exact hx h1
        rw [ih _ _ hnm' hk2]
        simp [List.count_cons, hx]

/-- The count stored for each label of the sequence in
`Counter(chord_sequence)` is its number of occurrences. -/
theorem lookupKey_counterOf (seq : List String) (k : String) (hk : k ∈ seq) :
    lookupKey (counterOf seq) k = some (seq.count k) :=
  lookupKey_foldl_new seq [] k (by simp) hk

theorem firstSeenAux_congr (l : List String) :
    ∀ (s t : List String), (∀ a, a ∈ s ↔ a ∈ t) →
      firstSeenAux s l = firstSeenAux t l := by
  induction l with
  | nil => intro s t _; rfl
  | cons x xs ih =>
      intro s t hst
      simp only [firstSeenAux]
      by_cases hx : x ∈ s
      · rw [if_pos hx, if_pos ((hst x).mp hx)]
        exact ih s t hst
      · rw [if_neg hx, if_neg (fun hh => hx ((hst x).mpr hh))]
        congr 1
        refine ih (x :: s) (x :: t) ?_
        intro a
        simp [List.mem_cons, hst a]

/-- The keys produced by folding a tally: the starting keys followed by
the unseen labels of `l` in first-seen order. -/
theorem keys_foldl (l : List String) :
    ∀ m : List (String × ℕ), (l.foldl dictIncr m).map Prod.fst
      = m.map Prod.fst ++ firstSeenAux (m.map Prod.fst) l := by
  induction l with
  | nil => intro m; simp [firstSeenAux]
  | cons x xs ih =>
      intro m
      simp only [List.foldl_cons, firstSeenAux]
      by_cases hx : x ∈ m.map Prod.fst
      · rw [if_pos hx, ih (dictIncr m x), keys_dictIncr, if_pos hx]
      · rw [if_neg hx, ih (dictIncr m x), keys_dictIncr, if_neg hx]
        rw [firstSeenAux_congr xs (m.map Prod.fst ++ [x]) (x :: m.map Prod.fst)
          (by intro a; simp [List.mem_append, List.mem_cons, or_comm])]
        simp

theorem keys_counterOf (seq : List String) :
    (counterOf seq).map Prod.fst = firstSeenAux [] seq := by
  have := keys_foldl seq []
  simpa using this

theorem firstSeenAux_mem (l : List String) :
    ∀ (s : List String) (a : String), a ∈ firstSeenAux s l → a ∉ s ∧ a ∈ l := by
  induction l with
  | nil => intro s a ha; simp [firstSeenAux] at ha
  | cons x xs ih =>
      intro s a ha
      simp only [firstSeenAux] at ha
      by_cases hx : x ∈ s
      · rw [if_pos hx] at ha
        obtain ⟨h1, h2⟩ := ih s a ha
        exact ⟨h1, List.mem_cons_of_mem _ h2⟩
      · rw [if_neg hx] at ha
        rcases List.mem_cons.mp ha with h | h
        · subst h
          exact ⟨hx, List.mem_cons_self _ _⟩
        · obtain ⟨h1, h2⟩ := ih (x :: s) a h
          exact ⟨fun hs => h1 (List.mem_cons_of_mem _ hs),
            List.mem_cons_of_mem _ h2⟩

theorem firstSeenAux_nodup (l : List String) :
    ∀ s : List String, (firstSeenAux s l).Nodup := by
  induction l with
  | nil => intro s; simp [firstSeenAux]
  | cons x xs ih =>
      intro s
      simp only [firstSeenAux]
      by_cases hx : x ∈ s
      · rw [if_pos hx]; exact ih s
      · rw [if_neg hx]
        refine List.nodup_cons.mpr ⟨?_, ih (x :: s)⟩
        intro hmem
        exact (firstSeenAux_mem xs (x :: s) x hmem).1 (List.mem_cons_self _ _)

/-- First-seen deduplication lists labels in order of their first
occurrence: earlier entries have strictly smaller first indices. -/
theorem firstSeenAux_pairwise (l : List String) :
    ∀ s : List String,
      List.Pairwise (fun a b => l.indexOf a < l.indexOf b)
        (firstSeenAux s l) := by
  induction l with
  | nil => intro s; simp [firstSeenAux]
  | cons x xs ih =>
      intro s
      simp only [firstSeenAux]
      by_cases hx : x ∈ s
      · rw [if_pos hx]
        refine (ih s).imp_of_mem ?_
        intro a b ha hb hab
        have hax : a ≠ x := fun hh => (firstSeenAux_mem xs s a ha).1 (hh ▸ hx)
        have hbx : b ≠ x := fun hh => (firstSeenAux_mem xs s b hb).1 (hh ▸ hx)
        rw [List.indexOf_cons_ne _ (fun hh => hax hh.symm),
          List.indexOf_cons_ne _ (fun hh => hbx hh.symm)]
        exact Nat.succ_lt_succ hab
      · rw [if_neg hx]
        refine List.pairwise_cons.mpr ⟨?_, ?_⟩
        · intro b hb
          have hbx : b ≠ x := fun hh =>
            (firstSeenAux_mem xs (x :: s) b hb).1
              (by rw [hh]; exact List.mem_cons_self _ _)
          rw [List.indexOf_cons_self,
            List.indexOf_cons_ne _ (fun hh => hbx hh.symm)]
          exact Nat.succ_pos _
        · refine (ih (x :: s)).imp_of_mem ?_
          intro a b ha hb hab
          have hax : a ≠ x := fun hh =>
            (firstSeenAux_mem xs (x :: s) a ha).1
              (by rw [hh]; exact List.mem_cons_self _ _)
          have hbx : b ≠ x := fun hh =>
            (firstSeenAux_mem xs (x :: s) b hb).1
              (by rw [hh]; exact List.mem_cons_self _ _)
          rw [List.indexOf_cons_ne _ (fun hh => hax hh.symm),
            List.indexOf_cons_ne _ (fun hh => hbx hh.symm)]
          exact Nat.succ_lt_succ hab

/-- Folding `pickMax` from an initial candidate returns the first entry
(in scan order) attaining the maximal stored count: `r` splits the
scanned list into a strictly-smaller prefix and the rest, and dominates
every entry. -/
theorem pickMax_fold (m : List (String × ℕ)) :
    ∀ b : String × ℕ, ∃ r pre suf,
      List.foldl pickMax (some b) m = some r
      ∧ b :: m = pre ++ r :: suf
      ∧ (∀ q ∈ pre, q.2 < r.2)
      ∧ (∀ q ∈ b :: m, q.2 ≤ r.2) := by
  induction m with
  | nil =>
      intro b
      refine ⟨b, [], [], rfl, rfl, by simp, ?_⟩
      intro q hq
      simp at hq
      subst hq
      exact Nat.le_refl _
  | cons p mrest ih =>
      intro b
      simp only [List.foldl_cons]
      by_cases hp : p.2 > b.2
      · have hstep : pickMax (some b) p = some p := by simp [pickMax, hp]
        rw [hstep]
        obtain ⟨r, pre, suf, hfold, hdec, hpre, hmax⟩ := ih p
        refine ⟨r, b :: pre, suf, hfold, ?_, ?_, ?_⟩
        · rw [List.cons_append, ← hdec]
        · intro q hq
          rcases List.mem_cons.mp hq with hq | hq
          · subst hq
            exact Nat.lt_of_lt_of_le hp (hmax p (List.mem_cons_self _ _))
          · exact hpre q hq
        · intro q hq
          rcases List.mem_cons.mp hq with hq | hq
          · subst hq
            exact Nat.le_of_lt
              (Nat.lt_of_lt_of_le hp (hmax p (List.mem_cons_self _ _)))
          · exact hmax q hq
      · have hstep : pickMax (some b) p = some b := by simp [pickMax, hp]
        rw [hstep]
        obtain ⟨r, pre, suf, hfold, hdec, hpre, hmax⟩ := ih b
        cases pre with
        | nil =>
            simp only [List.nil_append] at hdec
            injection hdec with h1 h2
            subst h2
            refine ⟨r, [], p :: mrest, hfold, ?_, by simp, ?_⟩
            · rw [List.nil_append, ← h1]
            · intro q hq
              rcases List.mem_cons.mp hq with hq | hq
              · subst hq
                exact hmax q (List.mem_cons_self _ _)
              rcases List.mem_cons.mp hq with hq | hq
              · subst hq
                exact Nat.le_trans (Nat.not_lt.mp hp)
                  (hmax b (List.mem_cons_self _ _))
              · exact hmax q (List.mem_cons_of_mem _ hq)
        | cons b0 pre2 =>
            rw [List.cons_append] at hdec
            injection hdec with h1 h2
            rw [← h1] at hpre
            refine ⟨r, b :: p :: pre2, suf, hfold, ?_, ?_, ?_⟩
            · rw [h2]
              simp
            · intro q hq
              have hbr : b.2 < r.2 := hpre b (List.mem_cons_self _ _)
              rcases List.mem_cons.mp hq with hq | hq
              · subst hq; exact hbr
              rcases List.mem_cons.mp hq with hq | hq
              · subst hq
                exact Nat.lt_of_le_of_lt (Nat.not_lt.mp hp) hbr
              · exact hpre q (List.mem_cons_of_mem _ hq)
            · intro q hq
              rcases List.mem_cons.mp hq with hq | hq
              · subst hq
                exact hmax q (List.mem_cons_self _ _)
              rcases List.mem_cons.mp hq with hq | hq
              · subst hq
                exact Nat.le_trans (Nat.not_lt.mp hp)
                  (hmax b (List.mem_cons_self _ _))
              · exact hmax q (List.mem_cons_of_mem _ hq)

/-- The selected most-common label of a nonempty sequence: it occurs in
the sequence, its count is maximal, and among the labels of maximal
count it has the earliest first occurrence. -/
theorem most_common_core (seq : List String) (hne : seq ≠ []) :
    ∃ m, (mostCommonOf (counterOf seq)).map Prod.fst = some m
      ∧ m ∈ seq
      ∧ (∀ y ∈ seq, seq.count y ≤ seq.count m)
      ∧ (∀ y ∈ seq, seq.count y = seq.count m →
          seq.indexOf m ≤ seq.indexOf y) := by
  have hkeys : (counterOf seq).map Prod.fst = firstSeenAux [] seq :=
    keys_counterOf seq
  have hknd : ((counterOf seq).map Prod.fst).Nodup := by
    rw [hkeys]; exact firstSeenAux_nodup seq []
  have hcne : counterOf seq ≠ [] := by
    intro h0
    obtain ⟨x, xs, hx⟩ := List.exists_cons_of_ne_nil hne
    have hfs : firstSeenAux [] seq = [] := by rw [← hkeys, h0]; rfl
    rw [hx] at hfs
    simp [firstSeenAux] at hfs
  obtain ⟨c, crest, hc⟩ := List.exists_cons_of_ne_nil hcne
  obtain ⟨r, pre, suf, hrfold, hdec, hpre, hmax⟩ := pickMax_fold crest c
  rw [← hc] at hdec hmax
  have hr : mostCommonOf (counterOf seq) = some r := by
    rw [hc]
    exact hrfold
  have hrmem : r ∈ counterOf seq := by
    rw [hdec]
    exact List.mem_append_right _ (List.mem_cons_self _ _)
  have hrk : lookupKey (counterOf seq) r.1 = some r.2 :=
    mem_lookupKey_of_nodup _ _ _ hknd hrmem
  have hr1seq : r.1 ∈ seq := by
    have hmemk : r.1 ∈ (counterOf seq).map Prod.fst :=
      List.mem_map.mpr ⟨r, hrmem, rfl⟩
    rw [hkeys] at hmemk
    exact (firstSeenAux_mem seq [] r.1 hmemk).2
  have hrcount : r.2 = seq.count r.1 := by
    have h2 := lookupKey_counterOf seq r.1 hr1seq
    rw [hrk] at h2
    injection h2
  refine ⟨r.1, ?_, hr1seq, ?_, ?_⟩
  · rw [hr]; rfl
  · intro y hy
    have hymem : (y, seq.count y) ∈ counterOf seq :=
      lookupKey_mem _ _ _ (lookupKey_counterOf seq y hy)
    have hle := hmax (y, seq.count y) hymem
    simp only at hle
    omega
  · intro y hy hcnt
    have hymem : (y, seq.count y) ∈ counterOf seq :=
      lookupKey_mem _ _ _ (lookupKey_counterOf seq y hy)
    rw [hdec] at hymem
    rcases List.mem_append.mp hymem with hin | hin
    · have hlt := hpre _ hin
      simp only at hlt
      omega
    · rcases List.mem_cons.mp hin with hin | hin
      · have hyr : y = r.1 := congrArg Prod.fst hin
        rw [hyr]
      · have hpw : List.Pairwise (fun a b => seq.indexOf a < seq.indexOf b)
            ((counterOf seq).map Prod.fst) := by
          rw [hkeys]; exact firstSeenAux_pairwise seq []
        rw [hdec, List.map_append, List.map_cons] at hpw
        have h3 := (List.pairwise_append.mp hpw).2.1
        have h4 := (List.pairwise_cons.mp h3).1
        have hy' : y ∈ suf.map Prod.fst :=
          List.mem_map.mpr ⟨(y, seq.count y), hin, rfl⟩
        exact Nat.le_of_lt (h4 y hy')

/-- C7.  For every non-empty input, `most_common_chord` is some label of
the sequence with maximal occurrence count, and among equally-frequent
labels the one whose first occurrence comes earliest is chosen (the
stable count-then-first-seen policy of `Counter.most_common`). -/
theorem most_common_chord_spec (chords_data : List ChordEvent)
    (h : chords_data ≠ []) :
    (analyzeChordSequence chords_data).most_common_chord.isSome = true
    ∧ ∀ m, (analyzeChordSequence chords_data).most_common_chord = some m →
        m ∈ (analyzeChordSequence chords_data).chord_sequence
        ∧ (∀ y ∈ (analyzeChordSequence chords_data).chord_sequence,
            (analyzeChordSequence chords_data).chord_sequence.count y
              ≤ (analyzeChordSequence chords_data).chord_sequence.count m)
        ∧ (∀ y ∈ (analyzeChordSequence chords_data).chord_sequence,
            (analyzeChordSequence chords_data).chord_sequence.count y
              = (analyzeChordSequence chords_data).chord_sequence.count m →
            (analyzeChordSequence chords_data).chord_sequence.indexOf m
              ≤ (analyzeChordSequence chords_data).chord_sequence.indexOf y) := by
  obtain ⟨c, cs, rfl⟩ := List.exists_cons_of_ne_nil h
  have hseq : (analyzeChordSequence (c :: cs)).chord_sequence
      = (c :: cs).map (fun x => x.chord) := rfl
  have hmc : (analyzeChordSequence (c :: cs)).most_common_chord
      = (mostCommonOf (counterOf ((c :: cs).map (fun x => x.chord)))).map
          Prod.fst := rfl
  obtain ⟨m₀, hm₀, hmem, hcount, htie⟩ := most_common_core
    ((c :: cs).map (fun x => x.chord)) (by simp)
  rw [hseq, hmc]
  constructor
  · rw [hm₀]; rfl
  · intro m hm
    rw [hm₀] at hm
    injection hm with hm
    subst hm
    exact ⟨hmem, hcount, htie⟩

/-- Witness for C7 at the two-event input with labels
`[C:maj, G:maj]`: the counts tie at one each and the first-seen label
`C:maj` is selected, with the earliest first occurrence. -/
theorem most_common_chord_spec_witness :
    (analyzeChordSequence [⟨0, "C:maj", 2/10, 85/100⟩,
        ⟨2/10, "G:maj", 1/2, 85/100⟩]).most_common_chord.isSome = true
    ∧ (analyzeChordSequence [⟨0, "C:maj", 2/10, 85/100⟩,
        ⟨2/10, "G:maj", 1/2, 85/100⟩]).chord_sequence.indexOf "C:maj"
      ≤ (analyzeChordSequence [⟨0, "C:maj", 2/10, 85/100⟩,
        ⟨2/10, "G:maj", 1/2, 85/100⟩]).chord_sequence.indexOf "G:maj" :=
  ⟨(most_common_chord_spec [⟨0, "C:maj", 2/10, 85/100⟩,
      ⟨2/10, "G:maj", 1/2, 85/100⟩] (by decide)).1,
   (((most_common_chord_spec [⟨0, "C:maj", 2/10, 85/100⟩,
      ⟨2/10, "G:maj", 1/2, 85/100⟩] (by decide)).2 "C:maj"
        (by decide)).2.2 "G:maj" (by decide) (by decide))⟩
